import Mathlib

set_option autoImplicit false

namespace LunaGrid

/-!
Shallow embedding of the client-side request-orchestration core of the
lunagrid single-page application: coin-list normalization and watchlist
reconciliation, preview request sequencing with stale-response
suppression, the report-flow debounce scheduler, the auth session check,
download filename extraction, and theme preference resolution.
-/

/-! ### JavaScript string trimming, modelled over `List Char` -/
/-- Leading-whitespace removal, the building block of `trim`. -/
def dropWS (l : List Char) : List Char := l.dropWhile Char.isWhitespace


/-- Model of JavaScript `String.prototype.trim`: drop leading and trailing
whitespace. -/
def trimChars (cs : List Char) : List Char :=
  (dropWS (dropWS cs).reverse).reverse


/-- `String`-level wrapper around `trimChars`. -/
def jsTrim (s : String) : String := String.mk (trimChars s.data)


/-- Model of JavaScript `String.prototype.toLowerCase`: lower-case each
character. -/
def jsToLower (s : String) : String := String.mk (s.data.map Char.toLower)


/-! ### Coin-list normalization (`normalizeCoinList`, src/unnamed/part_001) -/
/-- The loop body of `normalizeCoinList`: walk the items, trimming each,
skipping empties, and skipping any coin whose lower-cased key was already
seen; the first-seen casing is kept and order is preserved. -/
def normAux : List String → List String → List String
  | [], _ => []
  | item :: rest, seen =>
    let coin := jsTrim item
    if coin = "" then normAux rest seen
    else if jsToLower coin ∈ seen then normAux rest seen
    else coin :: normAux rest (jsToLower coin :: seen)


/-- Translation of `normalizeCoinList`: trim entries, drop empties, and
de-duplicate case-insensitively keeping first-seen casing and order. -/
def normalizeCoinList (items : List String) : List String := normAux items []


/-! ### JavaScript `Map` over lower-cased coin keys -/
/-- First-match association lookup. -/
def assocFind : List (String × String) → String → Option String
  | [], _ => none
  | (k, v) :: rest, q => if q = k then some v else assocFind rest q


/-- The entry list `coins.map((coin) => [coin.toLowerCase(), coin])` used to
build the JavaScript `Map`s in `reconcileWatchlist` and
`orderedSelectedCoins`. -/
def coinKeyMap (coins : List String) : List (String × String) :=
  coins.map (fun c => (jsToLower c, c))


/-- Model of `Map.get` for a `Map` built from `entries`: on duplicate keys the
JavaScript `Map` constructor keeps the last binding, so look up in the
reversed entry list. -/
def mapGet (entries : List (String × String)) (q : String) : Option String :=
  assocFind entries.reverse q


/-! ### Watchlist reconciliation (src/unnamed/part_001) -/
/-- Translation of `detectWatchlistFromLatest`: coins of the current asset
present in both coin universes (case-insensitive), in available-coin order,
else the first twelve available coins. -/
def detectWatchlistFromLatest (assetCoins usdCoins thbCoins : List String) : List String :=
  let available := normalizeCoinList assetCoins
  if available = [] then []
  else
    let usdSet := (normalizeCoinList usdCoins).map jsToLower
    let thbSet := (normalizeCoinList thbCoins).map jsToLower
    let overlap := available.filter
      (fun coin => usdSet.contains (jsToLower coin) && thbSet.contains (jsToLower coin))
    if overlap = [] then available.take (min available.length 12)
    else overlap


/-- Translation of `reconcileWatchlist`: keep previous-watchlist entries still
available (with the available list's casing), else auto-detect. -/
def reconcileWatchlist (prevWatchlist assetCoins usdCoins thbCoins : List String) :
    List String :=
  let available := normalizeCoinList assetCoins
  if available = [] then []
  else
    let byKey := coinKeyMap available
    let kept := (normalizeCoinList prevWatchlist).filterMap
      (fun coin => mapGet byKey (jsToLower coin))
    if kept = [] then detectWatchlistFromLatest available usdCoins thbCoins
    else kept


/-! ### Selection serialization (`orderedSelectedCoins`, src/unnamed/part_001) -/
/-- Translation of the `orderedSelectedCoins` memo: walk the selection set in
its insertion order and keep, for each selected coin, the entry of
`availableCoins` with the same lower-cased key (the available list's casing).
The selection set is modelled as the list of its members in insertion
order. -/
def orderedSelectedCoins (availableCoins selectedCoins : List String) : List String :=
  if selectedCoins.length = 0 ∨ availableCoins.length = 0 then []
  else
    let availableByKey := coinKeyMap availableCoins
    selectedCoins.filterMap (fun coin => mapGet availableByKey (jsToLower coin))


/-! ### ETL preview controller (src/frontend/src/App.jsx, preview effect)

The effect issues a request with id `previewReqRef.current + 1`, stores the
id back into the ref, and applies the response only when the stored id still
equals the request's id at resolution time.  The `finally` clause clears the
loading flag under the same guard. -/
structure EtlTable where
  columns : List String
  rows : List (List String)
  deriving DecidableEq


structure EtlErrorEntry where
  row : Nat
  field : String
  message : String
  deriving DecidableEq


structure EtlValidation where
  error_count : Nat
  warning_count : Nat
  errors : List EtlErrorEntry
  warnings : List EtlErrorEntry
  deriving DecidableEq


structure EtlPreviewPair where
  raw : EtlTable
  clean : EtlTable
  deriving DecidableEq


structure EtlPayload where
  summary : Option String
  validation : EtlValidation
  preview : EtlPreviewPair
  deriving DecidableEq


/-- The synthetic payload installed by the ETL catch branch on a non-abort
failure: one validation error, no warnings, empty raw and clean tables. -/
def etlErrorPayload (msg : String) : EtlPayload :=
  { summary := none
    validation :=
      { error_count := 1
        warning_count := 0
        errors := [{ row := 1, field := "Preview", message := msg }]
        warnings := [] }
    preview := { raw := ⟨[], []⟩, clean := ⟨[], []⟩ } }


structure EtlState where
  latest : Nat
  previewData : Option EtlPayload
  previewLoading : Bool
  deriving DecidableEq


def etlInit : EtlState :=
  { latest := 0, previewData := none, previewLoading := false }


/-- One run of the preview effect with a file present: assign the next
request id, record it in `previewReqRef`, and raise the loading flag. -/
def etlIssuePreview (s : EtlState) : Nat × EtlState :=
  let requestId := s.latest + 1
  (requestId, { s with latest := requestId, previewLoading := true })


/-- One run of the preview effect with no file: the preview data is cleared
and no request is issued (the request counter is untouched). -/
def etlClearFile (s : EtlState) : EtlState :=
  { s with previewData := none }


inductive EtlOutcome where
  | success (payload : EtlPayload)
  | failure (msg : String)
  | aborted
  deriving DecidableEq


/-- Resolution of the ETL preview request `requestId`: a success installs the
payload and a non-abort failure installs the synthetic error payload, each
only while the id is still the latest; an abort skips both branches.  The
`finally` clause clears the loading flag when the id is still the latest. -/
def etlResolve (requestId : Nat) (o : EtlOutcome) (s : EtlState) : EtlState :=
  let s1 :=
    match o with
    | .success payload =>
        if s.latest = requestId then { s with previewData := some payload } else s
    | .failure msg =>
        if s.latest = requestId then
          { s with previewData := some (etlErrorPayload msg) }
        else s
    | .aborted => s
  if s1.latest = requestId then { s1 with previewLoading := false } else s1


/-! ### Report preview controller (`callPreview`, src/unnamed/part_001) -/
structure RpTable where
  headers : List String
  rows : List (List String)
  deriving DecidableEq


def EMPTY_PREVIEW : RpTable := ⟨[], []⟩


structure RpPayload where
  meta : Option String
  coinsUSD : List String
  coinsTHB : List String
  rawPreview : Option RpTable
  cleanPreview : Option RpTable
  deriving DecidableEq


structure RpState where
  latest : Nat
  meta : Option String
  coinsUSD : List String
  coinsTHB : List String
  rawPreview : RpTable
  cleanPreview : RpTable
  loadingPreview : Bool
  errorMsg : String
  deriving DecidableEq


def rpInit : RpState :=
  { latest := 0, meta := none, coinsUSD := [], coinsTHB := [],
    rawPreview := EMPTY_PREVIEW, cleanPreview := EMPTY_PREVIEW,
    loadingPreview := false, errorMsg := "" }


/-- Entry of `callPreview`: take the next request id, record it in
`previewReqRef`, abort the previous request, raise the loading flag when
`showLoader` is set, and clear the error message. -/
def rpIssuePreview (showLoader : Bool) (s : RpState) : Nat × RpState :=
  let requestId := s.latest + 1
  (requestId,
   { s with latest := requestId,
            loadingPreview := if showLoader then true else s.loadingPreview,
            errorMsg := "" })


inductive RpOutcome where
  | success (payload : RpPayload)
  | failure (msg : String)
  | aborted
  deriving DecidableEq


/-- The success branch of `callPreview`: replace meta, both coin universes and
both preview tables from the payload (absent tables become the empty
preview). -/
def rpApplyPayload (p : RpPayload) (s : RpState) : RpState :=
  { s with meta := p.meta,
           coinsUSD := p.coinsUSD,
           coinsTHB := p.coinsTHB,
           rawPreview := p.rawPreview.getD EMPTY_PREVIEW,
           cleanPreview := p.cleanPreview.getD EMPTY_PREVIEW }


/-- Resolution of report preview request `requestId`: success applies the
payload and a non-abort failure sets the standalone error message, each only
while the id is still the latest; an abort returns before either branch.  The
`finally` clause clears the loading flag when the id is still the latest. -/
def rpResolve (requestId : Nat) (o : RpOutcome) (s : RpState) : RpState :=
  let s1 :=
    match o with
    | .success p => if s.latest = requestId then rpApplyPayload p s else s
    | .failure msg => if s.latest = requestId then { s with errorMsg := msg } else s
    | .aborted => s
  if s1.latest = requestId then { s1 with loadingPreview := false } else s1


/-! ### Report-flow preview scheduling effect (src/unnamed/part_001)

The effect compares the current `(file, asset, includeBot)` against
`prevPreviewConfigRef`, schedules `callPreview` after 0ms (structural change,
with the blocking loader) or 260ms (refinement change, without it), and its
cleanup clears the pending timer.  Files are compared by identity, modelled
as a numeric handle. -/
structure RpCfg where
  file : Option Nat
  asset : String
  includeBot : Bool
  deriving DecidableEq


structure PreviewCall where
  fileId : Nat
  asset : String
  includeBot : Bool
  coins : List String
  showLoader : Bool
  deriving DecidableEq


structure SchedState where
  prevCfg : RpCfg
  pending : Option (Nat × PreviewCall)
  calls : List PreviewCall
  deriving DecidableEq


def schedInit : SchedState :=
  { prevCfg := { file := none, asset := "USD", includeBot := true },
    pending := none, calls := [] }


/-- One run of the scheduling effect (its cleanup has just cleared any pending
timer).  With no file only `prevPreviewConfigRef` is updated; otherwise a
structural difference from the previous config yields delay 0 with the
blocking loader, a refinement change yields delay 260 without it, and the
scheduled call carries the ordered selected coins (empty when the selection
is empty). -/
def previewScheduleRun (file : Option Nat) (asset : String) (includeBot : Bool)
    (selectedCoins orderedCoins : List String) (s : SchedState) : SchedState :=
  let s0 := { s with pending := none }
  match file with
  | none => { s0 with prevCfg := { file := none, asset := asset, includeBot := includeBot } }
  | some f =>
    let prevCfg := s0.prevCfg
    let isBlockingPreview :=
      prevCfg.file ≠ some f ∨ prevCfg.asset ≠ asset ∨ prevCfg.includeBot ≠ includeBot
    let delay := if isBlockingPreview then 0 else 260
    let coins := if selectedCoins.length = 0 then [] else orderedCoins
    { s0 with
      prevCfg := { file := some f, asset := asset, includeBot := includeBot },
      pending := some (delay,
        { fileId := f, asset := asset, includeBot := includeBot,
          coins := coins, showLoader := decide isBlockingPreview }) }


/-- The pending debounce timer fires: the scheduled `callPreview` becomes a
network call. -/
def previewScheduleFire (s : SchedState) : SchedState :=
  match s.pending with
  | none => s
  | some (_, call) => { s with pending := none, calls := s.calls ++ [call] }


/-! ### Auth session check (src/frontend/src/components/OverlayNav.jsx) -/
/-- A settled `/api/auth/me` HTTP response: `ok` is the 2xx flag, `bodyUser`
the `user` field of the parsed JSON body (`none` when the body is malformed
or carries no user), `detail` its `detail` field, `status` the HTTP status
code. -/
structure MeHttpResponse where
  ok : Bool
  status : Nat
  bodyUser : Option String
  detail : Option String
  deriving DecidableEq


inductive MeFetch where
  | networkError
  | response (r : MeHttpResponse)
  deriving DecidableEq


/-- Translation of `requestMe`: a network failure rejects; a non-2xx response
throws `detail` (or `HTTP <status>`); a 2xx response resolves with the body's
`user` field, `none` included. -/
def requestMe (o : MeFetch) : Except String (Option String) :=
  match o with
  | .networkError => .error "TypeError: Failed to fetch"
  | .response r =>
      if r.ok = false then
        .error (r.detail.getD ("HTTP " ++ toString r.status))
      else .ok r.bodyUser


structure AuthState where
  storageToken : Option String
  token : String
  user : Option String
  checkingSession : Bool
  deriving DecidableEq


/-- Translation of `readStoredToken`: the stored entry or the empty string
(also on storage failure). -/
def readStoredToken (storageToken : Option String) : String :=
  storageToken.getD ""


/-- Translation of `writeStoredToken`: a non-empty token is stored, an empty
one removes the entry. -/
def writeStoredToken (token : String) : Option String :=
  if token = "" then none else some token


/-- Resolution of the session-check effect for a non-empty token: on a
resolved `requestMe` the user state is set from the response; on a rejection
the user is cleared, the token state is emptied and the stored token is
cleared.  Either way the checking flag is lowered. -/
def resolveSessionCheck (s : AuthState) (o : MeFetch) : AuthState :=
  match requestMe o with
  | .ok u => { s with user := u, checkingSession := false }
  | .error _ =>
      { storageToken := writeStoredToken "", token := "", user := none,
        checkingSession := false }


/-! ### Download filename extraction (App.jsx and src/unnamed/part_001)

Both flows run the regular expression `filename="([^"]+)"` against the
`content-disposition` header and fall back to a fixed name.  The regex is
modelled by a scan for the earliest position where the literal
`filename="` is followed by at least one non-quote character and a closing
quote. -/
def isPrefixOfChars : List Char → List Char → Bool
  | [], _ => true
  | _ :: _, [] => false
  | p :: ps, c :: cs => p == c && isPrefixOfChars ps cs


def filenamePattern : List Char := "filename=\"".data


/-- The first match of `filename="([^"]+)"` in `l`, returning the capture
group. -/
def findFilenameCapture : List Char → Option (List Char)
  | [] => none
  | c :: cs =>
    if isPrefixOfChars filenamePattern (c :: cs) then
      let rest := (c :: cs).drop filenamePattern.length
      let cap := rest.takeWhile (fun ch => ch != '"')
      if cap ≠ [] ∧ cap.length < rest.length then some cap
      else findFilenameCapture cs
    else findFilenameCapture cs


/-- Translation of `parseFilenameFromDisposition` (ETL flow): `null` for a
missing or empty header, else the regex capture when it matches. -/
def parseFilenameFromDisposition (disposition : Option String) : Option String :=
  match disposition with
  | none => none
  | some s =>
      if s = "" then none
      else (findFilenameCapture s.data).map (fun cs => String.mk cs)


/-- The ETL download filename: the extracted name, else "CLEAN.csv". -/
def etlDownloadFilename (header : Option String) : String :=
  (parseFilenameFromDisposition header).getD "CLEAN.csv"


/-- The report download filename (`handleDownload`): the header defaults to
the empty string, and a failed match falls back to "REPORT_CLEAN.xlsx". -/
def rpDownloadFilename (header : Option String) : String :=
  let dispo := header.getD ""
  match findFilenameCapture dispo.data with
  | some cs => String.mk cs
  | none => "REPORT_CLEAN.xlsx"


/-! ### Theme preference resolution (`readTheme`, src/unnamed/part_001)

`themeTargets()` is the list of observed root elements (html, body, #root
and #root's first child).  An element is modelled by its `data-theme`
attribute and class list; storage by an association list plus a flag that is
false when storage access throws (aborting steps 1–2's `try` block). -/
structure RootTarget where
  dataTheme : Option String
  classes : List String
  deriving DecidableEq


structure ThemeEnv where
  targets : List RootTarget
  storageOk : Bool
  storage : List (String × String)
  prefersDark : Bool
  deriving DecidableEq


def THEME_KEYS : List String := ["theme", "vite-ui-theme", "eglc_theme"]


/-- A `data-theme` attribute value counts only when it is "dark" or
"light". -/
def validTheme (v : String) : Option String :=
  if v = "dark" ∨ v = "light" then some v else none


def attrTheme (el : RootTarget) : Option String :=
  match el.dataTheme with
  | some v => validTheme v
  | none => none


def storageTheme (env : ThemeEnv) (k : String) : Option String :=
  match assocFind env.storage k with
  | some v => validTheme v
  | none => none


/-- Translation of `readTheme`: (1) a valid `data-theme` attribute on any
observed root, (2) the first valid value under the legacy storage keys
(skipped entirely when storage throws), (3) "dark" when any observed root
carries the "dark" class, (4) the `prefers-color-scheme` signal, else
"light". -/
def readTheme (env : ThemeEnv) : String :=
  let step12 :=
    match env.targets.findSome? attrTheme with
    | some v => some v
    | none =>
        if env.storageOk then THEME_KEYS.findSome? (storageTheme env)
        else none
  match step12 with
  | some v => v
  | none =>
      if env.targets.any (fun el => el.classes.contains "dark") then "dark"
      else if env.prefersDark then "dark"
      else "light"


/-! ### Spec-side formulations used to state the watchlist claims -/
/-- Spec-side formulation of reconciliation step 3: the previous-watchlist
entries still present in the normalized available set (case-insensitive), in
previous-watchlist order, each in the available list's casing. -/
def reconcileKept (prevWatchlist assetCoins : List String) : List String :=
  (normalizeCoinList prevWatchlist).filterMap
    (fun c => (normalizeCoinList assetCoins).find? (fun x => jsToLower x == jsToLower c))


/-- Spec-side formulation of reconciliation step 4's intersection: available
coins present in both universes (case-insensitive), in available-coin
order. -/
def reconcileOverlap (assetCoins usdCoins thbCoins : List String) : List String :=
  (normalizeCoinList assetCoins).filter
    (fun c =>
      (normalizeCoinList usdCoins).any (fun x => jsToLower x == jsToLower c) &&
      (normalizeCoinList thbCoins).any (fun x => jsToLower x == jsToLower c))


/-- A burst of refinement scheduling events: each change re-runs the effect
with the same file, asset and includeBot but a new ordered coin list. -/
def refinementChanges (f : Nat) (asset : String) (includeBot : Bool)
    (changes : List (List String)) (s : SchedState) : SchedState :=
  changes.foldl (fun st c => previewScheduleRun (some f) asset includeBot c c st) s


/-! ### Theorems: supporting lemmas, then one theorem per claim with
its witness or counterexample -/

theorem dropWhile_idem {α : Type} (p : α → Bool) (l : List α) :
    (l.dropWhile p).dropWhile p = l.dropWhile p := by
  induction l with
  | nil => rfl
  | cons c t ih =>
    by_cases h : p c
    · simp [List.dropWhile_cons, h, ih]
    · simp [List.dropWhile_cons, h]


theorem dropWhile_head_not {α : Type} (p : α → Bool) (l : List α) (c : α) (t : List α)
    (h : l.dropWhile p = c :: t) : p c = false := by
  induction l with
  | nil => simp at h
  | cons x xs ih =>
    by_cases hx : p x
    · exact ih (by simpa [List.dropWhile_cons, hx] using h)
    · rw [List.dropWhile_cons, if_neg (by simpa using hx)] at h
      cases h
      simpa using hx


theorem dropWhile_eq_self_of_head {α : Type} (p : α → Bool) (c : α) (t : List α)
    (h : p c = false) : (c :: t).dropWhile p = c :: t := by
  simp [List.dropWhile_cons, h]


theorem getLast?_dropWhile {α : Type} (p : α → Bool) (l : List α)
    (h : l.dropWhile p ≠ []) : (l.dropWhile p).getLast? = l.getLast? := by
  induction l with
  | nil => simp at h
  | cons c t ih =>
    by_cases hc : p c
    · rw [List.dropWhile_cons, if_pos (by simpa using hc)] at h ⊢
      rw [ih h]
      have ht : t ≠ [] := by
        intro he; subst he; simp [List.dropWhile_nil] at h
      rcases t with _ | ⟨b, t'⟩
      · exact absurd rfl ht
      · rw [List.getLast?_cons_cons]
    · rw [List.dropWhile_cons, if_neg (by simpa using hc)]


/-- Trimming is idempotent at the character-list level. -/
theorem trimChars_idem (cs : List Char) : trimChars (trimChars cs) = trimChars cs := by
  have key : ∀ (a : List Char),
      (∀ c t, a = c :: t → Char.isWhitespace c = false) →
      trimChars (dropWS a.reverse).reverse = (dropWS a.reverse).reverse := by
    intro a hhead
    rcases hcase : (dropWS a.reverse).reverse with _ | ⟨c, t⟩
    · rfl
    · have hu_ne : dropWS a.reverse ≠ [] := by
        intro he; rw [he] at hcase; simp at hcase
      have h1 : (dropWS a.reverse).reverse.head? = (dropWS a.reverse).getLast? :=
        List.head?_reverse _
      have h2 : (dropWS a.reverse).getLast? = a.reverse.getLast? :=
        getLast?_dropWhile _ _ hu_ne
      have h3 : a.reverse.getLast? = a.head? := List.getLast?_reverse a
      have hhead' : a.head? = some c := by
        rw [← h3, ← h2, ← h1, hcase]; rfl
      rcases a with _ | ⟨c0, t0⟩
      · simp at hhead'
      · have hc0 : c0 = c := by simpa using hhead'
        have hws : Char.isWhitespace c = false := hc0 ▸ hhead c0 t0 rfl
        have hfix : dropWS (dropWS (c0 :: t0).reverse).reverse
            = (dropWS (c0 :: t0).reverse).reverse := by
          rw [hcase]
          exact dropWhile_eq_self_of_head _ _ _ hws
        rw [← hcase]
        show (dropWS (dropWS (dropWS (c0 :: t0).reverse).reverse).reverse).reverse
            = (dropWS (c0 :: t0).reverse).reverse
        rw [hfix, List.reverse_reverse]
        rw [show dropWS (dropWS (c0 :: t0).reverse) = dropWS (c0 :: t0).reverse from
          dropWhile_idem _ _]
  have := key (dropWS cs) (fun c t h => dropWhile_head_not Char.isWhitespace cs c t h)
  exact this


/-- Trimming is idempotent at the `String` level. -/
theorem jsTrim_idem (s : String) : jsTrim (jsTrim s) = jsTrim s := by
  simp [jsTrim, trimChars_idem]


theorem normAux_mem (l seen : List String) (x : String) (hx : x ∈ normAux l seen) :
    jsTrim x = x ∧ x ≠ "" ∧ jsToLower x ∉ seen ∧ ∃ y ∈ l, x = jsTrim y := by
  induction l generalizing seen with
  | nil => simp [normAux] at hx
  | cons item rest ih =>
    rw [normAux] at hx
    by_cases h1 : jsTrim item = ""
    · rw [if_pos h1] at hx
      obtain ⟨ha, hb, hc, y, hy, he⟩ := ih seen hx
      exact ⟨ha, hb, hc, y, List.mem_cons_of_mem _ hy, he⟩
    · rw [if_neg h1] at hx
      by_cases h2 : jsToLower (jsTrim item) ∈ seen
      · rw [if_pos h2] at hx
        obtain ⟨ha, hb, hc, y, hy, he⟩ := ih seen hx
        exact ⟨ha, hb, hc, y, List.mem_cons_of_mem _ hy, he⟩
      · rw [if_neg h2] at hx
        rcases List.mem_cons.mp hx with heq | htail
        · subst heq
          exact ⟨jsTrim_idem item, h1, h2, item, List.mem_cons_self _ _, rfl⟩
        · obtain ⟨ha, hb, hc, y, hy, he⟩ := ih _ htail
          refine ⟨ha, hb, fun hmem => hc (List.mem_cons_of_mem _ hmem),
            y, List.mem_cons_of_mem _ hy, he⟩


theorem normAux_keys_nodup (l seen : List String) :
    ((normAux l seen).map jsToLower).Nodup := by
  induction l generalizing seen with
  | nil => simp [normAux]
  | cons item rest ih =>
    rw [normAux]
    by_cases h1 : jsTrim item = ""
    · rw [if_pos h1]; exact ih seen
    · rw [if_neg h1]
      by_cases h2 : jsToLower (jsTrim item) ∈ seen
      · rw [if_pos h2]; exact ih seen
      · rw [if_neg h2]
        rw [List.map_cons, List.nodup_cons]
        refine ⟨?_, ih _⟩
        intro hmem
        obtain ⟨x, hx, hkey⟩ := List.mem_map.mp hmem
        obtain ⟨_, _, hnot, _⟩ := normAux_mem _ _ _ hx
        exact hnot (by rw [hkey]; exact List.mem_cons_self _ _)


theorem normAux_fixed : ∀ (l seen : List String),
    (∀ x ∈ l, jsTrim x = x ∧ x ≠ "") →
    ((l.map jsToLower).Nodup) →
    (∀ x ∈ l, jsToLower x ∉ seen) →
    normAux l seen = l := by
  intro l
  induction l with
  | nil => intro seen _ _ _; rfl
  | cons x rest ih =>
    intro seen hfix hnd hdisj
    obtain ⟨htrim, hne⟩ := hfix x (List.mem_cons_self _ _)
    rw [normAux]
    rw [htrim, if_neg hne, if_neg (hdisj x (List.mem_cons_self _ _))]
    congr 1
    rw [List.map_cons, List.nodup_cons] at hnd
    refine ih _ (fun y hy => hfix y (List.mem_cons_of_mem _ hy)) hnd.2 ?_
    intro y hy hmem
    rcases List.mem_cons.mp hmem with heq | htail
    · exact hnd.1 (heq ▸ List.mem_map_of_mem jsToLower hy)
    · exact hdisj y (List.mem_cons_of_mem _ hy) htail


/-- Normalization is idempotent. -/
theorem normalizeCoinList_idem (l : List String) :
    normalizeCoinList (normalizeCoinList l) = normalizeCoinList l := by
  refine normAux_fixed _ _ ?_ (normAux_keys_nodup l []) ?_
  · intro x hx
    obtain ⟨ha, hb, _, _⟩ := normAux_mem _ _ _ hx
    exact ⟨ha, hb⟩
  · intro x hx h
    simp at h


theorem assocFind_append (a b : List (String × String)) (q : String) :
    assocFind (a ++ b) q = ((assocFind a q).map some).getD (assocFind b q) := by
  induction a with
  | nil => rfl
  | cons kv rest ih =>
    rcases kv with ⟨k, v⟩
    by_cases h : q = k
    · simp [assocFind, h]
    · simp [assocFind, h, ih]


theorem assocFind_eq_none (entries : List (String × String)) (q : String)
    (h : ∀ kv ∈ entries, kv.1 ≠ q) : assocFind entries q = none := by
  induction entries with
  | nil => rfl
  | cons kv rest ih =>
    rcases kv with ⟨k, v⟩
    rw [assocFind, if_neg (fun he => h (k, v) (List.mem_cons_self _ _) he.symm)]
    exact ih (fun kv hkv => h kv (List.mem_cons_of_mem _ hkv))


theorem assocFind_reverse_of_nodup (entries : List (String × String)) (q : String)
    (hnd : (entries.map Prod.fst).Nodup) :
    assocFind entries.reverse q = assocFind entries q := by
  induction entries with
  | nil => rfl
  | cons kv rest ih =>
    rcases kv with ⟨k, v⟩
    rw [List.map_cons, List.nodup_cons] at hnd
    rw [List.reverse_cons, assocFind_append, assocFind, ih hnd.2]
    by_cases h : q = k
    · subst h
      have hrest : assocFind rest q = none := by
        refine assocFind_eq_none rest _ ?_
        intro kv hkv he
        have hm : q ∈ List.map Prod.fst rest := by
          rw [← he]; exact List.mem_map_of_mem Prod.fst hkv
        exact hnd.1 hm
      rw [hrest, if_pos rfl]
      simp [assocFind]
    · rw [if_neg h]
      rcases hx : assocFind rest q with _ | w
      · simp [assocFind, hx, h]
      · simp [assocFind, hx, h]


theorem assocFind_coinKeyMap (l : List String) (q : String) :
    assocFind (coinKeyMap l) q = l.find? (fun c => jsToLower c == q) := by
  induction l with
  | nil => rfl
  | cons c rest ih =>
    rw [coinKeyMap, List.map_cons, assocFind, List.find?]
    by_cases h : q = jsToLower c
    · rw [if_pos h]
      have hb : (jsToLower c == q) = true := beq_iff_eq.mpr h.symm
      rw [hb]
    · rw [if_neg h]
      have hb : (jsToLower c == q) = false := by
        rw [beq_eq_false_iff_ne]
        exact fun he => h he.symm
      rw [hb]
      exact ih


theorem mapGet_coinKeyMap_reverse (l : List String) (q : String) :
    mapGet (coinKeyMap l) q = l.reverse.find? (fun c => jsToLower c == q) := by
  rw [mapGet, coinKeyMap, ← List.map_reverse, ← coinKeyMap, assocFind_coinKeyMap]


theorem mapGet_coinKeyMap_of_nodup (l : List String) (q : String)
    (hnd : (l.map jsToLower).Nodup) :
    mapGet (coinKeyMap l) q = l.find? (fun c => jsToLower c == q) := by
  rw [mapGet, assocFind_reverse_of_nodup, assocFind_coinKeyMap]
  rw [coinKeyMap]
  rw [List.map_map]
  exact hnd


theorem mapGet_coinKeyMap_mem (l : List String) (q v : String)
    (h : mapGet (coinKeyMap l) q = some v) : v ∈ l ∧ jsToLower v = q := by
  rw [mapGet_coinKeyMap_reverse] at h
  have hmem := List.mem_reverse.mp (List.mem_of_find?_eq_some h)
  have hkey := List.find?_some h
  exact ⟨hmem, by simpa using hkey⟩


theorem contains_map_jsToLower (l : List String) (k : String) :
    (l.map jsToLower).contains k = l.any (fun x => jsToLower x == k) := by
  induction l with
  | nil => rfl
  | cons c rest ih =>
    rw [List.map_cons, List.contains_cons, List.any_cons, ih]
    by_cases h : k = jsToLower c
    · simp [h]
    · have h1 : (k == jsToLower c) = false := by
        rw [beq_eq_false_iff_ne]; exact h
      have h2 : (jsToLower c == k) = false := by
        rw [beq_eq_false_iff_ne]; exact fun he => h he.symm
      rw [h1, h2]


theorem take_min_length (l : List String) (n : Nat) :
    l.take (min l.length n) = l.take n := by
  rcases Nat.le_total l.length n with h | h
  · rw [Nat.min_eq_left h, List.take_length, List.take_of_length_le h]
  · rw [Nat.min_eq_right h]


theorem nodup_keys_filterMap (f : String → Option String) :
    ∀ (l : List String),
    (∀ c v, f c = some v → jsToLower v = jsToLower c) →
    ((l.map jsToLower).Nodup) →
    ((l.filterMap f).map jsToLower).Nodup := by
  intro l
  induction l with
  | nil => intro _ _; simp
  | cons c rest ih =>
    intro hf hnd
    rw [List.map_cons, List.nodup_cons] at hnd
    rw [List.filterMap_cons]
    rcases hc : f c with _ | v
    · exact ih hf hnd.2
    · rw [List.map_cons, List.nodup_cons]
      refine ⟨?_, ih hf hnd.2⟩
      intro hmem
      obtain ⟨x, hx, hkey⟩ := List.mem_map.mp hmem
      obtain ⟨c', hc', hfc'⟩ := List.mem_filterMap.mp hx
      have h1 : jsToLower x = jsToLower c' := hf c' x hfc'
      have h2 : jsToLower v = jsToLower c := hf c v hc
      refine hnd.1 ?_
      rw [← h2, ← hkey, h1]
      exact List.mem_map_of_mem jsToLower hc'


/-- The code-side kept list agrees with the spec-side `reconcileKept`. -/
theorem kept_eq_reconcileKept (prevWatchlist assetCoins : List String) :
    (normalizeCoinList prevWatchlist).filterMap
        (fun coin => mapGet (coinKeyMap (normalizeCoinList assetCoins)) (jsToLower coin))
      = reconcileKept prevWatchlist assetCoins := by
  refine List.filterMap_congr ?_
  intro c _
  exact mapGet_coinKeyMap_of_nodup _ _ (normAux_keys_nodup assetCoins [])


/-- The code-side overlap list agrees with the spec-side
`reconcileOverlap` once the available list is already normalized. -/
theorem overlap_eq_reconcileOverlap (available usdCoins thbCoins : List String)
    (hav : normalizeCoinList available = available) :
    available.filter
        (fun coin =>
          ((normalizeCoinList usdCoins).map jsToLower).contains (jsToLower coin) &&
          ((normalizeCoinList thbCoins).map jsToLower).contains (jsToLower coin))
      = reconcileOverlap available usdCoins thbCoins := by
  rw [reconcileOverlap, hav]
  refine List.filter_congr ?_
  intro c _
  rw [contains_map_jsToLower, contains_map_jsToLower]


theorem detectWatchlistFromLatest_eq (available usdCoins thbCoins : List String)
    (hav : normalizeCoinList available = available) :
    detectWatchlistFromLatest available usdCoins thbCoins
      = (if available = [] then []
         else if reconcileOverlap available usdCoins thbCoins = []
         then available.take 12
         else reconcileOverlap available usdCoins thbCoins) := by
  rw [detectWatchlistFromLatest]
  by_cases h : available = []
  · simp only [hav, if_pos h]
  · simp only [hav, if_neg h]
    rw [overlap_eq_reconcileOverlap available usdCoins thbCoins hav,
      take_min_length]


theorem reconcileWatchlist_eq (prevWatchlist assetCoins usdCoins thbCoins : List String) :
    reconcileWatchlist prevWatchlist assetCoins usdCoins thbCoins
      = (if normalizeCoinList assetCoins = [] then []
         else if reconcileKept prevWatchlist assetCoins = []
         then detectWatchlistFromLatest (normalizeCoinList assetCoins) usdCoins thbCoins
         else reconcileKept prevWatchlist assetCoins) := by
  rw [reconcileWatchlist]
  by_cases h : normalizeCoinList assetCoins = []
  · simp only [if_pos h]
  · simp only [if_neg h]
    rw [kept_eq_reconcileKept]


/-- C5: Coin-list normalization is idempotent and matches its reference
behavior: normalizing an already-normalized list returns it unchanged;
normalization trims entries, drops empties, removes case-insensitive
duplicates keeping the first-seen casing, preserves first-seen order; and
normalizing ["btc", "BTC", " eth "] yields ["btc", "eth"]. -/
theorem normalizeCoinList_spec :
    (∀ l, normalizeCoinList (normalizeCoinList l) = normalizeCoinList l) ∧
    (∀ l x, x ∈ normalizeCoinList l → jsTrim x = x ∧ x ≠ "" ∧ ∃ y ∈ l, x = jsTrim y) ∧
    (∀ l, ((normalizeCoinList l).map jsToLower).Nodup) ∧
    normalizeCoinList ["btc", "BTC", " eth "] = ["btc", "eth"] := by
  refine ⟨normalizeCoinList_idem, ?_, fun l => normAux_keys_nodup l [], by decide⟩
  intro l x hx
  obtain ⟨ha, hb, _, hy⟩ := normAux_mem l [] x hx
  exact ⟨ha, hb, hy⟩


/-- Witness for C5 at a concrete input. -/
theorem normalizeCoinList_spec_witness :
    normalizeCoinList (normalizeCoinList ["btc", "BTC", " eth "])
        = normalizeCoinList ["btc", "BTC", " eth "] ∧
    (jsTrim "btc" = "btc" ∧ "btc" ≠ "" ∧ ∃ y ∈ ["btc", "BTC", " eth "], "btc" = jsTrim y) :=
  ⟨normalizeCoinList_spec.1 ["btc", "BTC", " eth "],
   normalizeCoinList_spec.2.1 ["btc", "BTC", " eth "] "btc" (by decide)⟩


/-- C3: Watchlist reconciliation follows the four-step algorithm: normalize
the available coins; empty available gives an empty result; else the
previous-watchlist entries still available (case-insensitive, in previous
order, in the available list's casing) when non-empty; else the
case-insensitive intersection with both universes in available order when
non-empty; else the first 12 available coins.  The given concrete instance
returns ["ETH"], and the function is pure (a fact inherent to the
embedding, stated for completeness). -/
theorem reconcileWatchlist_algorithm :
    (∀ p a u t, normalizeCoinList a = [] → reconcileWatchlist p a u t = []) ∧
    (∀ p a u t, reconcileKept p a ≠ [] →
        reconcileWatchlist p a u t = reconcileKept p a) ∧
    (∀ p a u t, reconcileKept p a = [] → normalizeCoinList a ≠ [] →
        reconcileOverlap a u t ≠ [] →
        reconcileWatchlist p a u t = reconcileOverlap a u t) ∧
    (∀ p a u t, reconcileKept p a = [] → normalizeCoinList a ≠ [] →
        reconcileOverlap a u t = [] →
        reconcileWatchlist p a u t = (normalizeCoinList a).take 12) ∧
    (∀ p a u t, reconcileWatchlist p a u t = reconcileWatchlist p a u t) ∧
    reconcileWatchlist [] ["BTC", "ETH", "XRP"] ["BTC", "ETH"] ["ETH", "XRP"] = ["ETH"] := by
  have hover : ∀ a u t, reconcileOverlap (normalizeCoinList a) u t = reconcileOverlap a u t := by
    intro a u t
    rw [reconcileOverlap, reconcileOverlap, normalizeCoinList_idem]
  refine ⟨?_, ?_, ?_, ?_, fun _ _ _ _ => rfl, by decide⟩
  · intro p a u t h
    rw [reconcileWatchlist_eq, if_pos h]
  · intro p a u t hk
    have hne : normalizeCoinList a ≠ [] := by
      intro h
      refine hk ?_
      rw [reconcileKept, h]
      simp
    rw [reconcileWatchlist_eq, if_neg hne, if_neg hk]
  · intro p a u t hk hne hov
    rw [reconcileWatchlist_eq, if_neg hne, if_pos hk,
      detectWatchlistFromLatest_eq _ _ _ (normalizeCoinList_idem a),
      if_neg hne, if_neg (by rw [hover]; exact hov), hover]
  · intro p a u t hk hne hov
    rw [reconcileWatchlist_eq, if_neg hne, if_pos hk,
      detectWatchlistFromLatest_eq _ _ _ (normalizeCoinList_idem a),
      if_neg hne, if_pos (by rw [hover]; exact hov)]


/-- Witness for C3 at concrete inputs exercising each step. -/
theorem reconcileWatchlist_algorithm_witness :
    reconcileWatchlist ["BTC"] [" "] [] [] = [] ∧
    reconcileWatchlist ["eth"] ["ETH", "BTC"] [] [] = reconcileKept ["eth"] ["ETH", "BTC"] ∧
    reconcileWatchlist [] ["BTC", "ETH", "XRP"] ["BTC", "ETH"] ["ETH", "XRP"]
      = reconcileOverlap ["BTC", "ETH", "XRP"] ["BTC", "ETH"] ["ETH", "XRP"] ∧
    reconcileWatchlist [] ["AAA"] [] [] = (normalizeCoinList ["AAA"]).take 12 :=
  ⟨reconcileWatchlist_algorithm.1 ["BTC"] [" "] [] [] (by decide),
   reconcileWatchlist_algorithm.2.1 ["eth"] ["ETH", "BTC"] [] [] (by decide),
   reconcileWatchlist_algorithm.2.2.1 [] ["BTC", "ETH", "XRP"] ["BTC", "ETH"] ["ETH", "XRP"]
     (by decide) (by decide) (by decide),
   reconcileWatchlist_algorithm.2.2.2.1 [] ["AAA"] [] [] (by decide) (by decide) (by decide)⟩


/-- C10: every element of the reconciled watchlist is drawn from the
normalized available list (canonical casing), the result has no
case-insensitive duplicates, it is empty exactly when the normalized
available list is empty, and non-empty otherwise. -/
theorem reconcileWatchlist_invariants :
    ∀ p a u t,
      (normalizeCoinList a = [] → reconcileWatchlist p a u t = []) ∧
      (normalizeCoinList a ≠ [] → reconcileWatchlist p a u t ≠ []) ∧
      (∀ x ∈ reconcileWatchlist p a u t, x ∈ normalizeCoinList a) ∧
      ((reconcileWatchlist p a u t).map jsToLower).Nodup := by
  intro p a u t
  have hidem := normalizeCoinList_idem a
  have hnda : ((normalizeCoinList a).map jsToLower).Nodup := normAux_keys_nodup a []
  by_cases hav : normalizeCoinList a = []
  · rw [reconcileWatchlist_eq, if_pos hav]
    exact ⟨fun _ => rfl, fun hne => absurd hav hne, by simp, by simp⟩
  · rw [reconcileWatchlist_eq, if_neg hav]
    by_cases hk : reconcileKept p a = []
    · rw [if_pos hk, detectWatchlistFromLatest_eq _ _ _ hidem, if_neg hav]
      by_cases hov : reconcileOverlap (normalizeCoinList a) u t = []
      · rw [if_pos hov]
        refine ⟨fun h => absurd h hav, ?_, fun x hx => List.mem_of_mem_take hx,
          List.Nodup.sublist (List.Sublist.map _ (List.take_sublist _ _)) hnda⟩
        intro _
        rcases hc : normalizeCoinList a with _ | ⟨c, cs⟩
        · exact absurd hc hav
        · simp
      · rw [if_neg hov]
        refine ⟨fun h => absurd h hav, fun _ => hov, ?_, ?_⟩
        · intro x hx
          rw [reconcileOverlap, hidem] at hx
          exact List.mem_of_mem_filter hx
        · rw [reconcileOverlap, hidem]
          exact hnda.sublist (List.Sublist.map _ (List.filter_sublist _))
    · rw [if_neg hk]
      refine ⟨fun h => absurd h hav, fun _ => hk, ?_, ?_⟩
      · intro x hx
        rw [reconcileKept] at hx
        obtain ⟨c, _, hfc⟩ := List.mem_filterMap.mp hx
        exact List.mem_of_find?_eq_some hfc
      · rw [reconcileKept]
        refine nodup_keys_filterMap _ _ ?_ (normAux_keys_nodup p [])
        intro c v hcv
        have := List.find?_some hcv
        exact beq_iff_eq.mp this


/-- Witness for C10 at a concrete input. -/
theorem reconcileWatchlist_invariants_witness :
    reconcileWatchlist [] ["BTC", "ETH", "XRP"] ["BTC", "ETH"] ["ETH", "XRP"] ≠ [] ∧
    "ETH" ∈ normalizeCoinList ["BTC", "ETH", "XRP"] :=
  ⟨(reconcileWatchlist_invariants [] ["BTC", "ETH", "XRP"] ["BTC", "ETH"] ["ETH", "XRP"]).2.1
     (by decide),
   (reconcileWatchlist_invariants [] ["BTC", "ETH", "XRP"] ["BTC", "ETH"] ["ETH", "XRP"]).2.2.1
     "ETH" (by decide)⟩


/-- C4 counterexample: for availableCoins = ["ETH","BTC","XRP"] and a
selection inserted as XRP then ETH, `orderedSelectedCoins` walks the
selection set in insertion order and returns ["XRP","ETH"], not the
claimed available-list order ["ETH","XRP"]. -/
theorem orderedSelectedCoins_counterexample :
    orderedSelectedCoins ["ETH", "BTC", "XRP"] ["XRP", "ETH"] = ["XRP", "ETH"] ∧
    orderedSelectedCoins ["ETH", "BTC", "XRP"] ["XRP", "ETH"] ≠ ["ETH", "XRP"] := by
  decide


/-- C4 amended: serialized coins follow the selection set's insertion order,
not the available-list order; each selected coin is emitted in the casing of
its (last) case-insensitive match in `availableCoins` and dropped when it has
none, and an empty selection or empty available list serializes to []. -/
theorem orderedSelectedCoins_amended :
    (∀ avail sel, sel ≠ [] → avail ≠ [] →
        orderedSelectedCoins avail sel
          = sel.filterMap
              (fun c => avail.reverse.find? (fun x => jsToLower x == jsToLower c))) ∧
    (∀ avail sel x, x ∈ orderedSelectedCoins avail sel → x ∈ avail) ∧
    (∀ avail, orderedSelectedCoins avail [] = []) ∧
    (∀ sel, orderedSelectedCoins [] sel = []) ∧
    orderedSelectedCoins ["ETH", "BTC", "XRP"] ["XRP", "ETH"] = ["XRP", "ETH"] := by
  refine ⟨?_, ?_, ?_, ?_, by decide⟩
  · intro avail sel hsel havail
    rw [orderedSelectedCoins,
      if_neg (by
        push_neg
        exact ⟨by simpa using hsel, by simpa using havail⟩)]
    refine List.filterMap_congr ?_
    intro c _
    exact mapGet_coinKeyMap_reverse avail (jsToLower c)
  · intro avail sel x hx
    rw [orderedSelectedCoins] at hx
    by_cases h : sel.length = 0 ∨ avail.length = 0
    · rw [if_pos h] at hx
      simp at hx
    · rw [if_neg h] at hx
      obtain ⟨c, _, hfc⟩ := List.mem_filterMap.mp hx
      exact (mapGet_coinKeyMap_mem avail _ x hfc).1
  · intro avail
    simp [orderedSelectedCoins]
  · intro sel
    simp [orderedSelectedCoins]


/-- Witness for C4's amended theorem at concrete inputs. -/
theorem orderedSelectedCoins_amended_witness :
    orderedSelectedCoins ["ETH", "BTC", "XRP"] ["XRP", "ETH"]
      = (["XRP", "ETH"] : List String).filterMap
          (fun c => (["ETH", "BTC", "XRP"] : List String).reverse.find?
            (fun x => jsToLower x == jsToLower c)) ∧
    "XRP" ∈ (["ETH", "BTC", "XRP"] : List String) :=
  ⟨orderedSelectedCoins_amended.1 ["ETH", "BTC", "XRP"] ["XRP", "ETH"]
     (by decide) (by decide),
   (orderedSelectedCoins_amended.2.1 ["ETH", "BTC", "XRP"] ["XRP", "ETH"] "XRP" (by decide))⟩


/-! ### Shared stale-response lemmas for the preview controllers -/
theorem etlResolve_stale (requestId : Nat) (o : EtlOutcome) (s : EtlState)
    (h : s.latest ≠ requestId) : etlResolve requestId o s = s := by
  rcases o with p | m | _ <;>
    simp [etlResolve, if_neg h]


theorem rpResolve_stale (requestId : Nat) (o : RpOutcome) (s : RpState)
    (h : s.latest ≠ requestId) : rpResolve requestId o s = s := by
  rcases o with p | m | _ <;>
    simp [rpResolve, if_neg h]


/-- C1: every preview invocation takes a strictly increasing request id
(ids 1 and 2 from the initial state), and a response — success or error —
is applied only when its id still equals the latest issued id.  In the
two-request scenario where R2 (id = i+2) resolves before R1 (id = i+1),
R1's late resolution is a no-op in both the ETL flow and the report flow,
and the displayed state reflects only R2's payload. -/
theorem preview_stale_response_suppression :
    (∀ s requestId o, s.latest ≠ requestId → etlResolve requestId o s = s) ∧
    (∀ r requestId o, r.latest ≠ requestId → rpResolve requestId o r = r) ∧
    (∀ s : EtlState, (etlIssuePreview s).1 = s.latest + 1 ∧
        (etlIssuePreview s).2.latest = (etlIssuePreview s).1 ∧
        (etlIssuePreview s).1 < (etlIssuePreview (etlIssuePreview s).2).1) ∧
    ((etlIssuePreview etlInit).1 = 1 ∧
     (etlIssuePreview (etlIssuePreview etlInit).2).1 = 2) ∧
    (∀ (s0 : EtlState) (p1 p2 : EtlPayload) (m1 : String),
      (etlResolve (etlIssuePreview s0).1 (EtlOutcome.success p1)
          (etlResolve (etlIssuePreview (etlIssuePreview s0).2).1 (EtlOutcome.success p2)
            (etlIssuePreview (etlIssuePreview s0).2).2)
        = etlResolve (etlIssuePreview (etlIssuePreview s0).2).1 (EtlOutcome.success p2)
            (etlIssuePreview (etlIssuePreview s0).2).2) ∧
      (etlResolve (etlIssuePreview s0).1 (EtlOutcome.failure m1)
          (etlResolve (etlIssuePreview (etlIssuePreview s0).2).1 (EtlOutcome.success p2)
            (etlIssuePreview (etlIssuePreview s0).2).2)
        = etlResolve (etlIssuePreview (etlIssuePreview s0).2).1 (EtlOutcome.success p2)
            (etlIssuePreview (etlIssuePreview s0).2).2) ∧
      (etlResolve (etlIssuePreview (etlIssuePreview s0).2).1 (EtlOutcome.success p2)
          (etlIssuePreview (etlIssuePreview s0).2).2).previewData = some p2) ∧
    (∀ (r0 : RpState) (b1 b2 : Bool) (q1 q2 : RpPayload) (n1 : String),
      (rpResolve (rpIssuePreview b1 r0).1 (RpOutcome.success q1)
          (rpResolve (rpIssuePreview b2 (rpIssuePreview b1 r0).2).1 (RpOutcome.success q2)
            (rpIssuePreview b2 (rpIssuePreview b1 r0).2).2)
        = rpResolve (rpIssuePreview b2 (rpIssuePreview b1 r0).2).1 (RpOutcome.success q2)
            (rpIssuePreview b2 (rpIssuePreview b1 r0).2).2) ∧
      (rpResolve (rpIssuePreview b1 r0).1 (RpOutcome.failure n1)
          (rpResolve (rpIssuePreview b2 (rpIssuePreview b1 r0).2).1 (RpOutcome.success q2)
            (rpIssuePreview b2 (rpIssuePreview b1 r0).2).2)
        = rpResolve (rpIssuePreview b2 (rpIssuePreview b1 r0).2).1 (RpOutcome.success q2)
            (rpIssuePreview b2 (rpIssuePreview b1 r0).2).2) ∧
      ((rpResolve (rpIssuePreview b2 (rpIssuePreview b1 r0).2).1 (RpOutcome.success q2)
          (rpIssuePreview b2 (rpIssuePreview b1 r0).2).2).rawPreview
        = q2.rawPreview.getD EMPTY_PREVIEW ∧
       (rpResolve (rpIssuePreview b2 (rpIssuePreview b1 r0).2).1 (RpOutcome.success q2)
          (rpIssuePreview b2 (rpIssuePreview b1 r0).2).2).cleanPreview
        = q2.cleanPreview.getD EMPTY_PREVIEW ∧
       (rpResolve (rpIssuePreview b2 (rpIssuePreview b1 r0).2).1 (RpOutcome.success q2)
          (rpIssuePreview b2 (rpIssuePreview b1 r0).2).2).meta = q2.meta)) := by
  refine ⟨fun s requestId o h => etlResolve_stale requestId o s h,
    fun r requestId o h => rpResolve_stale requestId o r h,
    ?_, by constructor <;> rfl, ?_, ?_⟩
  · intro s
    refine ⟨rfl, rfl, ?_⟩
    simp [etlIssuePreview]
  · intro s0 p1 p2 m1
    have hlat2 : (etlIssuePreview (etlIssuePreview s0).2).2.latest = s0.latest + 2 := rfl
    have hres : etlResolve (etlIssuePreview (etlIssuePreview s0).2).1 (EtlOutcome.success p2)
        (etlIssuePreview (etlIssuePreview s0).2).2
        = { latest := s0.latest + 2, previewData := some p2, previewLoading := false } := by
      simp [etlResolve, etlIssuePreview]
    have hne : (etlResolve (etlIssuePreview (etlIssuePreview s0).2).1 (EtlOutcome.success p2)
        (etlIssuePreview (etlIssuePreview s0).2).2).latest ≠ (etlIssuePreview s0).1 := by
      rw [hres]
      simp [etlIssuePreview]
    exact ⟨etlResolve_stale _ _ _ hne, etlResolve_stale _ _ _ hne, by rw [hres]⟩
  · intro r0 b1 b2 q1 q2 n1
    have hres : rpResolve (rpIssuePreview b2 (rpIssuePreview b1 r0).2).1 (RpOutcome.success q2)
        (rpIssuePreview b2 (rpIssuePreview b1 r0).2).2
        = { latest := r0.latest + 2,
            meta := q2.meta, coinsUSD := q2.coinsUSD, coinsTHB := q2.coinsTHB,
            rawPreview := q2.rawPreview.getD EMPTY_PREVIEW,
            cleanPreview := q2.cleanPreview.getD EMPTY_PREVIEW,
            loadingPreview := false, errorMsg := "" } := by
      simp [rpResolve, rpIssuePreview, rpApplyPayload]
    have hne : (rpResolve (rpIssuePreview b2 (rpIssuePreview b1 r0).2).1 (RpOutcome.success q2)
        (rpIssuePreview b2 (rpIssuePreview b1 r0).2).2).latest ≠ (rpIssuePreview b1 r0).1 := by
      rw [hres]
      simp [rpIssuePreview]
    exact ⟨rpResolve_stale _ _ _ hne, rpResolve_stale _ _ _ hne,
      by rw [hres], by rw [hres], by rw [hres]⟩


/-- Witness for C1's stale-suppression hypotheses at concrete inputs. -/
theorem preview_stale_response_suppression_witness :
    etlResolve 1 EtlOutcome.aborted
        { latest := 2, previewData := none, previewLoading := false }
      = { latest := 2, previewData := none, previewLoading := false } ∧
    rpResolve 1 RpOutcome.aborted
        { rpInit with latest := 2 } = { rpInit with latest := 2 } :=
  ⟨preview_stale_response_suppression.1
     { latest := 2, previewData := none, previewLoading := false } 1
     EtlOutcome.aborted (by decide),
   preview_stale_response_suppression.2.1
     { rpInit with latest := 2 } 1 RpOutcome.aborted (by decide)⟩


theorem rpCfg_eq_iff (x y : RpCfg) :
    x = y ↔ (x.file = y.file ∧ x.asset = y.asset ∧ x.includeBot = y.includeBot) := by
  constructor
  · intro h; subst h; exact ⟨rfl, rfl, rfl⟩
  · intro h
    obtain ⟨h1, h2, h3⟩ := h
    cases x; cases y; simp_all


theorem previewScheduleRun_refinement_step (f : Nat) (asset : String) (includeBot : Bool)
    (c : List String) (s : SchedState)
    (h : s.prevCfg = { file := some f, asset := asset, includeBot := includeBot }) :
    previewScheduleRun (some f) asset includeBot c c s
      = { prevCfg := { file := some f, asset := asset, includeBot := includeBot },
          pending := some (260,
            { fileId := f, asset := asset, includeBot := includeBot,
              coins := c, showLoader := false }),
          calls := s.calls } := by
  have hcoins : (if c.length = 0 then ([] : List String) else c) = c := by
    rcases c with _ | ⟨x, xs⟩ <;> simp
  simp [previewScheduleRun, h, hcoins]


theorem refinementChanges_spec (f : Nat) (asset : String) (includeBot : Bool) :
    ∀ (cs : List (List String)) (c : List String) (s : SchedState),
    s.prevCfg = { file := some f, asset := asset, includeBot := includeBot } →
    refinementChanges f asset includeBot (cs ++ [c]) s
      = { prevCfg := { file := some f, asset := asset, includeBot := includeBot },
          pending := some (260,
            { fileId := f, asset := asset, includeBot := includeBot,
              coins := c, showLoader := false }),
          calls := s.calls } := by
  intro cs
  induction cs with
  | nil =>
    intro c s h
    rw [refinementChanges, List.nil_append, List.foldl_cons, List.foldl_nil]
    exact previewScheduleRun_refinement_step f asset includeBot c s h
  | cons c0 rest ih =>
    intro c s h
    rw [refinementChanges, List.cons_append, List.foldl_cons]
    rw [previewScheduleRun_refinement_step f asset includeBot c0 s h]
    exact ih c _ rfl


/-- C2: in the report flow's scheduling effect, a structural change (file
replaced, or asset or includeBot changed since the previously scheduled
preview) schedules an immediate (0ms) request with the blocking loader,
while a refinement change schedules a 260ms-delayed request without it.
Each scheduling event clears and replaces the pending timer, so a burst of
N refinement changes followed by the timer firing produces exactly one
network call, carrying the last change's parameters. -/
theorem preview_debounce_policy :
    (∀ s f asset includeBot sel ord,
        s.prevCfg ≠ { file := some f, asset := asset, includeBot := includeBot } →
        (previewScheduleRun (some f) asset includeBot sel ord s).pending
          = some (0, { fileId := f, asset := asset, includeBot := includeBot,
                       coins := if sel.length = 0 then [] else ord,
                       showLoader := true })) ∧
    (∀ s f asset includeBot sel ord,
        s.prevCfg = { file := some f, asset := asset, includeBot := includeBot } →
        (previewScheduleRun (some f) asset includeBot sel ord s).pending
          = some (260, { fileId := f, asset := asset, includeBot := includeBot,
                         coins := if sel.length = 0 then [] else ord,
                         showLoader := false })) ∧
    (∀ s f asset includeBot sel ord,
        (previewScheduleRun (some f) asset includeBot sel ord s).calls = s.calls) ∧
    (∀ s f asset includeBot (cs : List (List String)) (c : List String),
        s.prevCfg = { file := some f, asset := asset, includeBot := includeBot } →
        previewScheduleFire (refinementChanges f asset includeBot (cs ++ [c]) s)
          = { prevCfg := { file := some f, asset := asset, includeBot := includeBot },
              pending := none,
              calls := s.calls
                ++ [{ fileId := f, asset := asset,
                      includeBot := includeBot, coins := c, showLoader := false }] }) := by
  refine ⟨?_, ?_, ?_, ?_⟩
  · intro s f asset includeBot sel ord h
    have hb : s.prevCfg.file ≠ some f ∨ s.prevCfg.asset ≠ asset ∨
        s.prevCfg.includeBot ≠ includeBot := by
      by_contra hc
      push_neg at hc
      exact h ((rpCfg_eq_iff _ _).mpr ⟨hc.1, hc.2.1, hc.2.2⟩)
    simp only [previewScheduleRun]
    rw [if_pos hb]
    simp [hb]
  · intro s f asset includeBot sel ord h
    have hb : ¬(s.prevCfg.file ≠ some f ∨ s.prevCfg.asset ≠ asset ∨
        s.prevCfg.includeBot ≠ includeBot) := by
      push_neg
      rw [h]
      exact ⟨rfl, rfl, rfl⟩
    simp only [previewScheduleRun]
    rw [if_neg hb]
    simp [hb]
  · intro s f asset includeBot sel ord
    by_cases hb : s.prevCfg.file ≠ some f ∨ s.prevCfg.asset ≠ asset ∨
        s.prevCfg.includeBot ≠ includeBot
    · simp [previewScheduleRun, hb]
    · simp [previewScheduleRun, hb]
  · intro s f asset includeBot cs c h
    rw [refinementChanges_spec f asset includeBot cs c s h]
    rfl


/-- Witness for C2's hypotheses at concrete inputs. -/
theorem preview_debounce_policy_witness :
    (previewScheduleRun (some 7) "USD" true ["BTC"] ["BTC"] schedInit).pending
      = some (0, { fileId := 7, asset := "USD", includeBot := true,
                   coins := ["BTC"], showLoader := true }) ∧
    previewScheduleFire
        (refinementChanges 7 "USD" true [["BTC"], ["BTC", "ETH"]]
          { schedInit with prevCfg := { file := some 7, asset := "USD", includeBot := true } })
      = { prevCfg := { file := some 7, asset := "USD", includeBot := true },
          pending := none,
          calls := [{ fileId := 7, asset := "USD", includeBot := true,
                      coins := ["BTC", "ETH"], showLoader := false }] } := by
  constructor
  · have := preview_debounce_policy.1 schedInit 7 "USD" true ["BTC"] ["BTC"] (by decide)
    simpa using this
  · have := preview_debounce_policy.2.2.2
      { schedInit with prevCfg := { file := some 7, asset := "USD", includeBot := true } }
      7 "USD" true [["BTC"]] ["BTC", "ETH"] (by decide)
    simpa using this


/-- C6 counterexample: an HTTP 2xx `/api/auth/me` response whose body is
malformed (no parsable user object) makes `requestMe` resolve with null
instead of rejecting, so the catch branch never runs: the stored token
"tok" survives and a subsequent read of the Token Store returns "tok",
not the empty string, while the claim demands the token be cleared on a
malformed body. -/
theorem sessionCheck_counterexample :
    requestMe (MeFetch.response
        { ok := true, status := 200, bodyUser := none, detail := none })
      = Except.ok none ∧
    readStoredToken
        (resolveSessionCheck
          { storageToken := some "tok", token := "tok", user := none,
            checkingSession := true }
          (MeFetch.response
            { ok := true, status := 200, bodyUser := none, detail := none })).storageToken
      = "tok" ∧
    ("tok" : String) ≠ "" := by
  refine ⟨rfl, rfl, by decide⟩


/-- C6 amended: when the `/api/auth/me` request rejects — a network error or
a non-2xx status — the stored token is cleared, a subsequent read of the
Token Store returns the empty string, the token state is emptied and the
user is logged out; on HTTP 2xx the user state is set from the response body
(null when the body is malformed or carries no user object), with the token
left in place. -/
theorem sessionCheck_token_clearing :
    (∀ s o msg, requestMe o = Except.error msg →
        (resolveSessionCheck s o).token = "" ∧
        readStoredToken (resolveSessionCheck s o).storageToken = "" ∧
        (resolveSessionCheck s o).user = none ∧
        (resolveSessionCheck s o).checkingSession = false) ∧
    (∀ s r, r.ok = false →
        readStoredToken (resolveSessionCheck s (MeFetch.response r)).storageToken = "" ∧
        (resolveSessionCheck s (MeFetch.response r)).token = "") ∧
    (∀ s, readStoredToken (resolveSessionCheck s MeFetch.networkError).storageToken = "") ∧
    (∀ s r, r.ok = true →
        (resolveSessionCheck s (MeFetch.response r)).user = r.bodyUser ∧
        (resolveSessionCheck s (MeFetch.response r)).storageToken = s.storageToken) := by
  refine ⟨?_, ?_, ?_, ?_⟩
  · intro s o msg h
    rw [resolveSessionCheck, h]
    exact ⟨rfl, rfl, rfl, rfl⟩
  · intro s r h
    have he : requestMe (MeFetch.response r) = Except.error (r.detail.getD ("HTTP " ++ toString r.status)) := by
      rw [requestMe, if_pos h]
    rw [resolveSessionCheck, he]
    exact ⟨rfl, rfl⟩
  · intro s
    rw [resolveSessionCheck]
    rfl
  · intro s r h
    have ho : requestMe (MeFetch.response r) = Except.ok r.bodyUser := by
      rw [requestMe, if_neg (by rw [h]; simp)]
    rw [resolveSessionCheck, ho]
    exact ⟨rfl, rfl⟩


/-- Witness for C6's amended theorem at concrete inputs. -/
theorem sessionCheck_token_clearing_witness :
    readStoredToken
        (resolveSessionCheck
          { storageToken := some "tok", token := "tok", user := none,
            checkingSession := true }
          (MeFetch.response
            { ok := false, status := 401, bodyUser := none, detail := none })).storageToken
      = "" ∧
    (resolveSessionCheck
        { storageToken := some "tok", token := "tok", user := some "alex",
          checkingSession := true }
        (MeFetch.response
          { ok := true, status := 200, bodyUser := some "alex", detail := none })).user
      = some "alex" :=
  ⟨(sessionCheck_token_clearing.2.1
      { storageToken := some "tok", token := "tok", user := none, checkingSession := true }
      { ok := false, status := 401, bodyUser := none, detail := none } rfl).1,
   (sessionCheck_token_clearing.2.2.2
      { storageToken := some "tok", token := "tok", user := some "alex",
        checkingSession := true }
      { ok := true, status := 200, bodyUser := some "alex", detail := none } rfl).1⟩


/-- C7 counterexample: in the ETL flow, clear the file while a preview
request is in flight — the effect resets the preview data without issuing a
new request, so the aborted request is still the latest, and its `finally`
clause lowers the loading flag: the aborted request does change state,
contradicting the claim that an aborted request changes no state at all. -/
theorem previewAbort_counterexample :
    (etlClearFile (etlIssuePreview etlInit).2).previewLoading = true ∧
    (etlResolve 1 EtlOutcome.aborted
        (etlClearFile (etlIssuePreview etlInit).2)).previewLoading = false ∧
    etlResolve 1 EtlOutcome.aborted (etlClearFile (etlIssuePreview etlInit).2)
      ≠ etlClearFile (etlIssuePreview etlInit).2 := by
  refine ⟨rfl, rfl, ?_⟩
  intro h
  have := congrArg EtlState.previewLoading h
  simp [etlResolve, etlClearFile, etlIssuePreview, etlInit] at this


/-- C7 amended: on a non-abort failure of the latest request, the ETL flow
replaces the preview with the synthetic payload carrying exactly one
validation error ({row 1, field "Preview", message}), zero warnings and
empty raw/clean tables, while the report flow sets the standalone error
message and leaves both preview tables unchanged.  An aborted request never
touches preview data or the error message in either flow, and changes
nothing at all when a newer request has been issued; an aborted request that
is still the latest (reachable in the ETL flow after the file is cleared,
and at teardown) only lowers the loading flag. -/
theorem previewFailureHandling :
    (∀ s requestId msg, s.latest = requestId →
        etlResolve requestId (EtlOutcome.failure msg) s
          = { latest := s.latest, previewData := some (etlErrorPayload msg),
              previewLoading := false }) ∧
    (∀ msg, (etlErrorPayload msg).validation.error_count = 1 ∧
        (etlErrorPayload msg).validation.warning_count = 0 ∧
        (etlErrorPayload msg).validation.errors
          = [{ row := 1, field := "Preview", message := msg }] ∧
        (etlErrorPayload msg).validation.warnings = [] ∧
        (etlErrorPayload msg).preview.raw = ⟨[], []⟩ ∧
        (etlErrorPayload msg).preview.clean = ⟨[], []⟩ ∧
        (etlErrorPayload msg).summary = none) ∧
    (∀ r requestId msg, r.latest = requestId →
        rpResolve requestId (RpOutcome.failure msg) r
          = { r with errorMsg := msg, loadingPreview := false }) ∧
    (∀ s requestId, s.latest ≠ requestId →
        etlResolve requestId EtlOutcome.aborted s = s) ∧
    (∀ r requestId, r.latest ≠ requestId →
        rpResolve requestId RpOutcome.aborted r = r) ∧
    (∀ s requestId, (etlResolve requestId EtlOutcome.aborted s).previewData
        = s.previewData) ∧
    (∀ r requestId,
        (rpResolve requestId RpOutcome.aborted r).errorMsg = r.errorMsg ∧
        (rpResolve requestId RpOutcome.aborted r).rawPreview = r.rawPreview ∧
        (rpResolve requestId RpOutcome.aborted r).cleanPreview = r.cleanPreview) ∧
    (∀ s, etlResolve s.latest EtlOutcome.aborted s = { s with previewLoading := false }) ∧
    (∀ r, rpResolve r.latest RpOutcome.aborted r = { r with loadingPreview := false }) := by
  refine ⟨?_, fun msg => ⟨rfl, rfl, rfl, rfl, rfl, rfl, rfl⟩, ?_, ?_, ?_, ?_, ?_, ?_, ?_⟩
  · intro s requestId msg h
    simp [etlResolve, h]
  · intro r requestId msg h
    simp [rpResolve, h]
  · intro s requestId h
    exact etlResolve_stale requestId EtlOutcome.aborted s h
  · intro r requestId h
    exact rpResolve_stale requestId RpOutcome.aborted r h
  · intro s requestId
    by_cases h : s.latest = requestId
    · simp [etlResolve, h]
    · simp [etlResolve, if_neg h]
  · intro r requestId
    by_cases h : r.latest = requestId
    · simp [rpResolve, h]
    · simp [rpResolve, if_neg h]
  · intro s
    simp [etlResolve]
  · intro r
    simp [rpResolve]


/-- Witness for C7's amended theorem at concrete inputs. -/
theorem previewFailureHandling_witness :
    etlResolve 1 (EtlOutcome.failure "HTTP 500") (etlIssuePreview etlInit).2
      = { latest := 1, previewData := some (etlErrorPayload "HTTP 500"),
          previewLoading := false } ∧
    rpResolve 1 (RpOutcome.failure "HTTP 500") (rpIssuePreview true rpInit).2
      = { (rpIssuePreview true rpInit).2 with
          errorMsg := "HTTP 500", loadingPreview := false } ∧
    etlResolve 2 EtlOutcome.aborted (etlIssuePreview etlInit).2
      = (etlIssuePreview etlInit).2 ∧
    rpResolve 2 RpOutcome.aborted (rpIssuePreview true rpInit).2
      = (rpIssuePreview true rpInit).2 :=
  ⟨previewFailureHandling.1 (etlIssuePreview etlInit).2 1 "HTTP 500" rfl,
   previewFailureHandling.2.2.1 (rpIssuePreview true rpInit).2 1 "HTTP 500" rfl,
   previewFailureHandling.2.2.2.1 (etlIssuePreview etlInit).2 2 (by decide),
   previewFailureHandling.2.2.2.2.1 (rpIssuePreview true rpInit).2 2 (by decide)⟩


theorem isPrefixOfChars_drop : ∀ (p l : List Char),
    isPrefixOfChars p l = true → l = p ++ l.drop p.length := by
  intro p
  induction p with
  | nil => intro l _; rfl
  | cons x xs ih =>
    intro l h
    rcases l with _ | ⟨c, cs⟩
    · simp [isPrefixOfChars] at h
    · rw [isPrefixOfChars, Bool.and_eq_true] at h
      have hx : x = c := beq_iff_eq.mp h.1
      subst hx
      rw [List.length_cons, List.drop_succ_cons, List.cons_append]
      congr 1
      exact ih cs h.2


theorem findFilenameCapture_sound : ∀ (l cap : List Char),
    findFilenameCapture l = some cap →
    (∃ pre post, l = pre ++ filenamePattern ++ cap ++ '"' :: post) ∧
    cap ≠ [] ∧ ∀ ch ∈ cap, ch ≠ '"' := by
  intro l
  induction l with
  | nil => intro cap h; simp [findFilenameCapture] at h
  | cons c cs ih =>
    intro cap h
    rw [findFilenameCapture] at h
    by_cases hp : isPrefixOfChars filenamePattern (c :: cs) = true
    · rw [if_pos hp] at h
      by_cases hcap : ((c :: cs).drop filenamePattern.length).takeWhile
            (fun ch => ch != '"') ≠ [] ∧
          (((c :: cs).drop filenamePattern.length).takeWhile
            (fun ch => ch != '"')).length
          < ((c :: cs).drop filenamePattern.length).length
      · rw [if_pos hcap] at h
        have hc : cap = ((c :: cs).drop filenamePattern.length).takeWhile
            (fun ch => ch != '"') := by
          cases h; rfl
        subst hc
        obtain ⟨hne, hlt⟩ := hcap
        have hsplit := List.takeWhile_append_dropWhile
          (p := fun ch => ch != '"') (l := (c :: cs).drop filenamePattern.length)
        have hdrop_ne : ((c :: cs).drop filenamePattern.length).dropWhile
            (fun ch => ch != '"') ≠ [] := by
          intro hnil
          rw [hnil, List.append_nil] at hsplit
          rw [hsplit] at hlt
          exact Nat.lt_irrefl _ hlt
        rcases hd : ((c :: cs).drop filenamePattern.length).dropWhile
            (fun ch => ch != '"') with _ | ⟨q, post⟩
        · exact absurd hd hdrop_ne
        · have hq : (q != '"') = false :=
            dropWhile_head_not (fun ch => ch != '"') _ q post hd
          have hq' : q = '"' := by
            rcases bne_eq_false_iff_eq.mp hq with h'
            exact h'
          refine ⟨⟨[], post, ?_⟩, hne, ?_⟩
          · have h1 : (c :: cs) = filenamePattern ++ (c :: cs).drop filenamePattern.length :=
              isPrefixOfChars_drop filenamePattern (c :: cs) hp
            rw [hd, hq'] at hsplit
            rw [List.nil_append, List.append_assoc]
            exact h1.trans (by rw [hsplit])
          · intro ch hch
            have := List.mem_takeWhile_imp hch
            exact bne_iff_ne.mp this
      · rw [if_neg hcap] at h
        obtain ⟨⟨pre, post, hpre⟩, hne, hnq⟩ := ih cap h
        exact ⟨⟨c :: pre, post, by rw [hpre]; rfl⟩, hne, hnq⟩
    · rw [if_neg hp] at h
      obtain ⟨⟨pre, post, hpre⟩, hne, hnq⟩ := ih cap h
      exact ⟨⟨c :: pre, post, by rw [hpre]; rfl⟩, hne, hnq⟩


/-- C8: the download trigger extracts the filename as the text captured by
`filename="([^"]+)"` in the content-disposition header; an absent header or
a header the pattern does not match yields the fixed default — "CLEAN.csv"
in the ETL flow, "REPORT_CLEAN.xlsx" in the report flow — and extraction is
a total function (it cannot throw). -/
theorem downloadFilename_spec :
    (etlDownloadFilename none = "CLEAN.csv" ∧
     rpDownloadFilename none = "REPORT_CLEAN.xlsx") ∧
    (∀ s, findFilenameCapture s.data = none →
        etlDownloadFilename (some s) = "CLEAN.csv" ∧
        rpDownloadFilename (some s) = "REPORT_CLEAN.xlsx") ∧
    (∀ s name, parseFilenameFromDisposition (some s) = some name →
        (∃ pre post, s.data = pre ++ filenamePattern ++ name.data ++ '"' :: post) ∧
        name.data ≠ [] ∧ ∀ ch ∈ name.data, ch ≠ '"') ∧
    (etlDownloadFilename (some "attachment; filename=\"CLEAN (3).csv\"")
        = "CLEAN (3).csv" ∧
     rpDownloadFilename (some "attachment; filename=\"REPORT_CLEAN (7).xlsx\"")
        = "REPORT_CLEAN (7).xlsx") := by
  refine ⟨⟨rfl, rfl⟩, ?_, ?_, by constructor <;> rfl⟩
  · intro s h
    constructor
    · rw [etlDownloadFilename, parseFilenameFromDisposition]
      by_cases hs : s = ""
      · rw [if_pos hs]; rfl
      · rw [if_neg hs, h]; rfl
    · rw [rpDownloadFilename]
      show (match findFilenameCapture s.data with
        | some cs => String.mk cs
        | none => "REPORT_CLEAN.xlsx") = "REPORT_CLEAN.xlsx"
      rw [h]
  · intro s name h
    rw [parseFilenameFromDisposition] at h
    by_cases hs : s = ""
    · rw [if_pos hs] at h; exact absurd h (by simp)
    · rw [if_neg hs] at h
      rcases hf : findFilenameCapture s.data with _ | cap
      · rw [hf] at h; exact absurd h (by simp)
      · rw [hf] at h
        have hname : name = String.mk cap := by
          simpa using h.symm
        subst hname
        exact findFilenameCapture_sound s.data cap hf


/-- Witness for C8's hypotheses at concrete inputs. -/
theorem downloadFilename_spec_witness :
    (etlDownloadFilename (some "attachment") = "CLEAN.csv" ∧
     rpDownloadFilename (some "attachment") = "REPORT_CLEAN.xlsx") ∧
    ((∃ pre post, ("filename=\"a\"" : String).data
        = pre ++ filenamePattern ++ ("a" : String).data ++ '"' :: post) ∧
     ("a" : String).data ≠ [] ∧ ∀ ch ∈ ("a" : String).data, ch ≠ '"') :=
  ⟨downloadFilename_spec.2.1 "attachment" (by decide),
   downloadFilename_spec.2.2.1 "filename=\"a\"" "a" (by decide)⟩


theorem findSome?_eq_none_of_all_none {α β : Type} (f : α → Option β) :
    ∀ (l : List α), (∀ x ∈ l, f x = none) → l.findSome? f = none := by
  intro l
  induction l with
  | nil => intro _; rfl
  | cons x xs ih =>
    intro h
    rw [List.findSome?_cons, h x (List.mem_cons_self _ _)]
    exact ih (fun y hy => h y (List.mem_cons_of_mem _ hy))


theorem findSome?_first_hit {α β : Type} (f : α → Option β) :
    ∀ (pre : List α) (el : α) (post : List α) (v : β),
    (∀ x ∈ pre, f x = none) → f el = some v →
    (pre ++ el :: post).findSome? f = some v := by
  intro pre
  induction pre with
  | nil =>
    intro el post v _ hel
    rw [List.nil_append, List.findSome?_cons, hel]
  | cons x xs ih =>
    intro el post v hpre hel
    rw [List.cons_append, List.findSome?_cons, hpre x (List.mem_cons_self _ _)]
    exact ih el post v (fun y hy => hpre y (List.mem_cons_of_mem _ hy)) hel


/-- C9: `readTheme` resolves, in order: (1) a valid explicit `data-theme`
attribute on any observed root element; (2) the legacy storage keys "theme",
"vite-ui-theme", "eglc_theme", in that order, taking the first valid value;
(3) "dark" when any observed root carries the "dark" class; (4) the
`prefers-color-scheme` signal; defaulting to "light".  A storage access
failure skips step (2) and resolution continues. -/
theorem readTheme_resolution_order :
    (∀ env pre el post v, env.targets = pre ++ el :: post →
        (∀ x ∈ pre, attrTheme x = none) → attrTheme el = some v →
        readTheme env = v) ∧
    (∀ env, (∀ x ∈ env.targets, attrTheme x = none) → env.storageOk = true →
        (∀ v, storageTheme env "theme" = some v → readTheme env = v) ∧
        (∀ v, storageTheme env "theme" = none →
            storageTheme env "vite-ui-theme" = some v → readTheme env = v) ∧
        (∀ v, storageTheme env "theme" = none →
            storageTheme env "vite-ui-theme" = none →
            storageTheme env "eglc_theme" = some v → readTheme env = v)) ∧
    (∀ env, (∀ x ∈ env.targets, attrTheme x = none) →
        (env.storageOk = false ∨ ∀ k ∈ THEME_KEYS, storageTheme env k = none) →
        (env.targets.any (fun el => el.classes.contains "dark") = true →
            readTheme env = "dark") ∧
        (env.targets.any (fun el => el.classes.contains "dark") = false →
            env.prefersDark = true → readTheme env = "dark") ∧
        (env.targets.any (fun el => el.classes.contains "dark") = false →
            env.prefersDark = false → readTheme env = "light")) := by
  refine ⟨?_, ?_, ?_⟩
  · intro env pre el post v htargets hpre hel
    rw [readTheme, htargets, findSome?_first_hit attrTheme pre el post v hpre hel]
  · intro env hattr hsok
    have hnone : env.targets.findSome? attrTheme = none :=
      findSome?_eq_none_of_all_none attrTheme env.targets hattr
    refine ⟨?_, ?_, ?_⟩
    · intro v hv
      rw [readTheme, hnone]
      simp only [hsok, if_true, THEME_KEYS, List.findSome?_cons, hv]
    · intro v h1 hv
      rw [readTheme, hnone]
      simp only [hsok, if_true, THEME_KEYS, List.findSome?_cons, h1, hv]
    · intro v h1 h2 hv
      rw [readTheme, hnone]
      simp only [hsok, if_true, THEME_KEYS, List.findSome?_cons, h1, h2, hv]
  · intro env hattr hstore
    have hnone : env.targets.findSome? attrTheme = none :=
      findSome?_eq_none_of_all_none attrTheme env.targets hattr
    have hstep12 : (match env.targets.findSome? attrTheme with
        | some v => some v
        | none =>
            if env.storageOk then THEME_KEYS.findSome? (storageTheme env)
            else none) = none := by
      rw [hnone]
      rcases hstore with hs | hs
      · rw [hs]; rfl
      · by_cases hok : env.storageOk
        · rw [if_pos hok]
          exact findSome?_eq_none_of_all_none (storageTheme env) THEME_KEYS hs
        · rw [if_neg hok]
    refine ⟨?_, ?_, ?_⟩
    · intro hdark
      rw [readTheme]
      rw [show (match env.targets.findSome? attrTheme with
        | some v => some v
        | none =>
            if env.storageOk then THEME_KEYS.findSome? (storageTheme env)
            else none) = none from hstep12]
      rw [if_pos hdark]
    · intro hdark hpref
      rw [readTheme]
      rw [show (match env.targets.findSome? attrTheme with
        | some v => some v
        | none =>
            if env.storageOk then THEME_KEYS.findSome? (storageTheme env)
            else none) = none from hstep12]
      rw [hdark, hpref]
      rfl
    · intro hdark hpref
      rw [readTheme]
      rw [show (match env.targets.findSome? attrTheme with
        | some v => some v
        | none =>
            if env.storageOk then THEME_KEYS.findSome? (storageTheme env)
            else none) = none from hstep12]
      rw [hdark, hpref]
      rfl


/-- Witness for C9's hypotheses at concrete environments. -/
theorem readTheme_resolution_order_witness :
    readTheme { targets := [{ dataTheme := none, classes := [] },
                            { dataTheme := some "dark", classes := [] }],
                storageOk := true, storage := [("theme", "light")],
                prefersDark := false } = "dark" ∧
    readTheme { targets := [{ dataTheme := none, classes := [] }],
                storageOk := true, storage := [("theme", "light")],
                prefersDark := true } = "light" ∧
    readTheme { targets := [{ dataTheme := none, classes := ["dark"] }],
                storageOk := false, storage := [("theme", "light")],
                prefersDark := false } = "dark" ∧
    readTheme { targets := [{ dataTheme := none, classes := [] }],
                storageOk := false, storage := [], prefersDark := true } = "dark" ∧
    readTheme { targets := [{ dataTheme := none, classes := [] }],
                storageOk := true, storage := [], prefersDark := false } = "light" :=
  ⟨readTheme_resolution_order.1
     { targets := [{ dataTheme := none, classes := [] },
                   { dataTheme := some "dark", classes := [] }],
       storageOk := true, storage := [("theme", "light")], prefersDark := false }
     [{ dataTheme := none, classes := [] }]
     { dataTheme := some "dark", classes := [] } [] "dark" rfl (by decide) (by decide),
   ((readTheme_resolution_order.2.1
     { targets := [{ dataTheme := none, classes := [] }],
       storageOk := true, storage := [("theme", "light")], prefersDark := true }
     (by decide) rfl).1 "light" (by decide)),
   ((readTheme_resolution_order.2.2
     { targets := [{ dataTheme := none, classes := ["dark"] }],
       storageOk := false, storage := [("theme", "light")], prefersDark := false }
     (by decide) (Or.inl rfl)).1 (by decide)),
   ((readTheme_resolution_order.2.2
     { targets := [{ dataTheme := none, classes := [] }],
       storageOk := false, storage := [], prefersDark := true }
     (by decide) (Or.inl rfl)).2.1 (by decide) rfl),
   ((readTheme_resolution_order.2.2
     { targets := [{ dataTheme := none, classes := [] }],
       storageOk := true, storage := [], prefersDark := false }
     (by decide) (Or.inr (by decide))).2.2 (by decide) rfl)⟩


end LunaGrid
